import Mathlib

/-!
Shallow embedding of the indexing work-queue and batch-dispatch engine of the
local-rag Obsidian plugin (src/main.ts), together with the exclusion filter,
the persistence layer and the bulk "index all documents" command.

Modelling conventions:
* A JavaScript `Set<string>` is modelled as an insertion-ordered duplicate-free
  `List String`; `jsAdd` is `Set.prototype.add`, `mkSet` is `new Set(iterable)`.
* JavaScript expressions that can throw (a `TypeError` from calling `.map` on
  `undefined`) are modelled in the result type `JsOut`: `.ok a` is normal
  return, `.thrown` is an exception escaping the function.
* Machine strings are Lean `String`s; `String.prototype.startsWith` is the
  character-list prefix test `strStarts`.
* The backend (`requestUrl` against `/api/batch_process_documents`) is a
  parameter `resp : List DocRecord → Option (List String)`: `some failed` is a
  resolved response whose `json.failed_documents` is `failed`, `none` is a
  transport-level rejection (the promise rejects, control reaches `catch`).
* The base64 payload encoding `btoa(encodeURIComponent(...).replace(...))` is
  an opaque parameter `encode : String → String` of the environment; no claim
  constrains the payload bytes, only the document names and counts.
-/

namespace LocalRag

/-- Result of running a piece of JavaScript that may throw: `.ok a` is a
normal completion with value `a`, `.thrown` is an escaping exception. -/
inductive JsOut (α : Type) where
  | ok (a : α)
  | thrown
  deriving DecidableEq, Repr

/-- `String.prototype.startsWith`: `strStarts s p` is true iff `p` is a
prefix of `s` (kernel-computable character-list version). -/
def strStarts (s p : String) : Bool := p.data.isPrefixOf s.data

/-- `Set.prototype.add` on an insertion-ordered duplicate-free list: a no-op
when the element is already present, otherwise appended at the end. -/
def jsAdd (s : List String) (x : String) : List String :=
  if x ∈ s then s else s ++ [x]

/-- `new Set(l)` — deduplicate keeping the first occurrence of each element,
in iteration order. -/
def mkSet (l : List String) : List String := l.foldl jsAdd []

/-- The `tags` entry of a file's frontmatter metadata: `none` models a
frontmatter block that has no `tags` field at all. -/
structure FrontmatterMeta where
  tags : Option (List String)
  deriving DecidableEq, Repr

/-- Obsidian metadata cache for one file, as consumed by `isExcluded`:
`frontmatter = none` models a file without frontmatter, `tags = none` models
absent inline-tag metadata. Inline entries are already the `.tag` strings. -/
structure FileCache where
  frontmatter : Option FrontmatterMeta
  tags : Option (List String)
  deriving DecidableEq, Repr

/-- A vault file: its metadata cache (the cache itself may be absent) and its
raw content. The path is the key under which the vault stores the file. -/
structure TFile where
  cache : Option FileCache
  content : String
  deriving DecidableEq, Repr

/-- The plugin's environment during one operation: the vault
(`getAbstractFileByPath`, restricted to markdown files — `none` covers both a
missing path and a folder), the exclusion settings, and the payload
encoding. -/
structure Env where
  vault : String → Option TFile
  excludePaths : List String
  excludeTags : List String
  encode : String → String

/-- Tag normalisation `t.startsWith('#') ? t : '#' + t`. -/
def normTag (t : String) : String := if strStarts t "#" then t else "#" ++ t

/-- `cache?.frontmatter?.tags.map(normTag) || []`.  The optional chain
short-circuits to `undefined` (then `|| []` yields `[]`) when the cache or the
frontmatter is absent; but when the frontmatter exists without a `tags` field
the `.map` member access is NOT optional-chained, so it dereferences
`undefined` and throws a TypeError. -/
def frontmatterTags (c : Option FileCache) : JsOut (List String) :=
  match c with
  | none => .ok []
  | some cache =>
    match cache.frontmatter with
    | none => .ok []
    | some fm =>
      match fm.tags with
      | none => .thrown
      | some ts => .ok (ts.map normTag)

/-- `cache?.tags?.map(t => t.tag).map(normTag) || []` — here the whole chain
is optional, so absent inline-tag metadata yields `[]`. -/
def inlineTags (c : Option FileCache) : List String :=
  match c with
  | none => []
  | some cache =>
    match cache.tags with
    | none => []
    | some ts => ts.map normTag

/-- `isExcluded(file)` from src/main.ts: first the excluded-path loop (plain
string prefix match, returning `true` on the first hit, before any tag
metadata is touched), then the tag rule on the concatenation of normalised
frontmatter and inline tags against the configured excluded tags. -/
def isExcluded (env : Env) (path : String) (f : TFile) : JsOut Bool :=
  if env.excludePaths.any (fun p => strStarts path p) then .ok true
  else
    match frontmatterTags f.cache with
    | .thrown => .thrown
    | .ok fts =>
      let allTags := fts ++ inlineTags f.cache
      .ok (env.excludeTags.any (fun tag => allTags.contains tag))

/-- The record-assembly loop shared by `batchIndexDocuments` (its
`filePaths.forEach` building `files`) and by the load-time filter in
`loadSettings`: resolve each path against the vault, keep it exactly when it
resolves to a file and `isExcluded` returns `false`; a thrown `isExcluded`
escapes the whole loop. -/
def collectFiles (env : Env) : List String → JsOut (List (String × TFile))
  | [] => .ok []
  | p :: ps =>
    match env.vault p with
    | none => collectFiles env ps
    | some f =>
      match isExcluded env p f with
      | .thrown => .thrown
      | .ok true => collectFiles env ps
      | .ok false =>
        match collectFiles env ps with
        | .thrown => .thrown
        | .ok rest => .ok ((p, f) :: rest)

/-- `path` resolves to a file and the exclusion check completes without
throwing (it may answer either way). -/
def resolveOk (env : Env) (p : String) : Bool :=
  match env.vault p with
  | none => true
  | some f =>
    match isExcluded env p f with
    | .ok _ => true
    | .thrown => false

/-- `path` resolves to an existing file that is not excluded (and the check
does not throw): exactly the paths `collectFiles` keeps. -/
def liveB (env : Env) (p : String) : Bool :=
  match env.vault p with
  | none => false
  | some f =>
    match isExcluded env p f with
    | .ok b => !b
    | .thrown => false

/-- One entry of the JSON body sent to `/api/batch_process_documents`. -/
structure DocRecord where
  document_name : String
  document_data : String
  deriving DecidableEq, Repr

/-- `documents.push({document_name: file.path, document_data: docData})` over
the collected files, in order. -/
def assembleDocs (env : Env) (pairs : List (String × TFile)) : List DocRecord :=
  pairs.map (fun pr => ⟨pr.1, env.encode pr.2.content⟩)

/-- Observable outcome of one `batchIndexDocuments` call: `sent` is the
`documents` array of the single HTTP request it issues, `remaining` is the
set it returns. -/
structure BatchOutcome where
  sent : List DocRecord
  remaining : List String
  deriving DecidableEq, Repr

/-- `batchIndexDocuments(filePaths)` from src/main.ts.  The `added` argument
records the identifiers that concurrent `modify` handlers insert into the live
`toIndex` set during this call's suspension points (`await vault.read`,
`await requestUrl`): since `filePaths` aliases `this.toIndex` on the periodic
path, those insertions land in the same object.  On a resolved response the
function returns `new Set(resp.json.failed_documents)` — a fresh set; on a
transport rejection the `catch` branch returns `filePaths`, i.e. the aliased
live object, which by then also holds `added`. -/
def batchIndexDocuments (env : Env) (resp : List DocRecord → Option (List String))
    (filePaths added : List String) : JsOut BatchOutcome :=
  match collectFiles env filePaths with
  | .thrown => .thrown
  | .ok pairs =>
    match resp (assembleDocs env pairs) with
    | some failed => .ok ⟨assembleDocs env pairs, mkSet failed⟩
    | none => .ok ⟨assembleDocs env pairs, added.foldl jsAdd filePaths⟩

/-- One tick of the interval handler registered in `onload`:
`this.toIndex = await this.batchIndexDocuments(this.toIndex)` when the set is
non-empty.  Returns the new value of `toIndex`; `added` are the identifiers
concurrently inserted during the dispatch window. -/
def dispatchTick (env : Env) (resp : List DocRecord → Option (List String))
    (toIndex added : List String) : JsOut (List String) :=
  match batchIndexDocuments env resp toIndex added with
  | .thrown => .thrown
  | .ok o => .ok o.remaining

/-- The `documents` array of the single HTTP call a tick issues. -/
def tickSent (env : Env) (resp : List DocRecord → Option (List String))
    (toIndex : List String) : JsOut (List DocRecord) :=
  match batchIndexDocuments env resp toIndex [] with
  | .thrown => .thrown
  | .ok o => .ok o.sent

/-- Slicing loop of `chunkArray`, structurally recursive on a fuel that
counts the remaining loop iterations: each iteration of the JavaScript loop
consumes at least one item (for `chunkSize ≥ 1`), so `items.length` fuel is
enough. -/
def chunkArrayGo {α : Type} (chunkSize : Nat) : Nat → List α → List (List α)
  | _, [] => []
  | 0, _ => []
  | fuel + 1, x :: xs =>
    (x :: xs).take chunkSize :: chunkArrayGo chunkSize fuel ((x :: xs).drop chunkSize)

/-- `chunkArray(items, chunkSize)` from src/main.ts: consecutive slices of at
most `chunkSize` items.  (The JavaScript loop never advances when
`chunkSize = 0`; both call sites pass the constant 10, and the model returns
`[]` in that unreachable case.) -/
def chunkArray {α : Type} (items : List α) (chunkSize : Nat) : List (List α) :=
  if chunkSize = 0 then [] else chunkArrayGo chunkSize items.length items

/-- The per-pass loop of the `index-all-documents` command: dispatch each
batch sequentially through `batchIndexDocuments (new Set(batch))`, folding
every returned identifier into the accumulating `remaining` set. -/
def dispatchBatches (env : Env) (resp : List DocRecord → Option (List String)) :
    List (List String) → List String → JsOut (List String)
  | [], acc => .ok acc
  | b :: bs, acc =>
    match batchIndexDocuments env resp (mkSet b) [] with
    | .thrown => .thrown
    | .ok o => dispatchBatches env resp bs (o.remaining.foldl jsAdd acc)

/-- One full pass: chunk the working list into batches of `batchSize` and
dispatch them all, collecting the union of the failures. -/
def passOnce (env : Env) (resp : List DocRecord → Option (List String))
    (batchSize : Nat) (paths : List String) : JsOut (List String) :=
  dispatchBatches env resp (chunkArray paths batchSize) []

/-- The `while (currentRemaining.size > 0 && attempts < 5)` retry loop of the
`index-all-documents` command, structurally recursive on a fuel counting the
remaining loop iterations (`attempts` strictly increases towards the bound 5,
so `5 - attempts` fuel is enough; when the fuel runs out `attempts = 5` and
the loop guard is false anyway).  Returns the final `currentRemaining`
together with the number of retry passes performed. -/
def retryLoopGo (env : Env) (resp : List DocRecord → Option (List String))
    (batchSize : Nat) : Nat → Nat → List String → JsOut (List String × Nat)
  | 0, attempts, current => .ok (current, attempts)
  | fuel + 1, attempts, current =>
    if current = [] ∨ 5 ≤ attempts then .ok (current, attempts)
    else
      match passOnce env resp batchSize current with
      | .thrown => .thrown
      | .ok next => retryLoopGo env resp batchSize fuel (attempts + 1) next

/-- The retry loop as entered by the command: `attempts = 0`, so 5 iterations
of fuel. -/
def retryLoop (env : Env) (resp : List DocRecord → Option (List String))
    (batchSize : Nat) (current : List String) : JsOut (List String × Nat) :=
  retryLoopGo env resp batchSize 5 0 current

/-- The `index-all-documents` command from the point where the vault
traversal has produced `filesSet` (the deduplicated list of file paths under
the non-excluded folders): an initial pass over batches of 10, then the
bounded retry loop over the remaining identifiers. -/
def indexAllDocuments (env : Env) (resp : List DocRecord → Option (List String))
    (filesSet : List String) : JsOut (List String × Nat) :=
  match passOnce env resp 10 filesSet with
  | .thrown => .thrown
  | .ok remaining => retryLoop env resp 10 remaining

/-- The in-memory plugin settings (interface `LocalRagSettings` merged with
`DEFAULT_SETTINGS`, so every field is present). -/
structure LocalRagSettings where
  configPath : String
  indexIntervalMinutes : Nat
  excludePaths : List String
  excludeTags : List String
  deriving DecidableEq, Repr

/-- `DEFAULT_SETTINGS` (the home-directory expansion of `configPath` is kept
symbolic). -/
def DEFAULT_SETTINGS : LocalRagSettings :=
  ⟨"~/.config/local_rag/config.yml", 5, [], []⟩

/-- Settings as they may come back from disk: arbitrary JSON, so any field
may be absent. -/
structure StoredSettings where
  configPath : Option String
  indexIntervalMinutes : Option Nat
  excludePaths : Option (List String)
  excludeTags : Option (List String)
  deriving DecidableEq, Repr

/-- The persisted plugin data (interface `LocalRagData`): `settings = none`
models an absent `settings` key, `toIndex = none` models a `toIndex` that is
absent or fails `Array.isArray`. -/
structure LocalRagData where
  settings : Option StoredSettings
  toIndex : Option (List String)
  deriving DecidableEq, Repr

/-- `Object.assign({}, DEFAULT_SETTINGS, stored)`: stored fields override the
defaults field-wise. -/
def mergeSettings (s : StoredSettings) : LocalRagSettings :=
  ⟨s.configPath.getD DEFAULT_SETTINGS.configPath,
   s.indexIntervalMinutes.getD DEFAULT_SETTINGS.indexIntervalMinutes,
   s.excludePaths.getD DEFAULT_SETTINGS.excludePaths,
   s.excludeTags.getD DEFAULT_SETTINGS.excludeTags⟩

/-- The complete-JSON image of in-memory settings on disk. -/
def storedOf (s : LocalRagSettings) : StoredSettings :=
  ⟨some s.configPath, some s.indexIntervalMinutes,
   some s.excludePaths, some s.excludeTags⟩

/-- `normalizeData` from src/main.ts: merge stored settings over the
defaults; take `toIndex` when it is an array, else `[]`.  Total on `null`
and on malformed data. -/
def normalizeData (d : Option LocalRagData) : LocalRagSettings × List String :=
  match d with
  | none => (DEFAULT_SETTINGS, [])
  | some dd =>
    ((match dd.settings with
      | none => DEFAULT_SETTINGS
      | some ss => mergeSettings ss),
     dd.toIndex.getD [])

/-- `savePluginData`: `data.toIndex = Array.from(this.toIndex)` then
`saveData(this.data)` — the persisted image of the current settings and
pending set. -/
def savePluginData (settings : LocalRagSettings) (toIndex : List String) :
    LocalRagData :=
  ⟨some (storedOf settings), some toIndex⟩

/-- The exclusion environment in force right after `loadSettings` assigned
`this.settings` from the normalised data: the live vault plus the merged
exclusion configuration. -/
def loadEnv (vault : String → Option TFile) (encode : String → String)
    (stored : Option LocalRagData) : Env :=
  ⟨vault, (normalizeData stored).1.excludePaths,
   (normalizeData stored).1.excludeTags, encode⟩

/-- `loadSettings` from src/main.ts, restricted to its pending-set effect:
normalise the loaded data, rebuild `toIndex` as a set, and — only when it is
non-empty — keep exactly the paths that still resolve to a non-excluded file.
Returns the exclusion environment in force during the filter together with
the resulting `toIndex`. -/
def loadSettings (vault : String → Option TFile) (encode : String → String)
    (stored : Option LocalRagData) : JsOut (Env × List String) :=
  if 0 < (mkSet (normalizeData stored).2).length then
    match collectFiles (loadEnv vault encode stored)
        (mkSet (normalizeData stored).2) with
    | .thrown => .thrown
    | .ok pairs => .ok (loadEnv vault encode stored, pairs.map Prod.fst)
  else .ok (loadEnv vault encode stored, mkSet (normalizeData stored).2)

/-- The `vault.on('modify')` handler: when the event file is a markdown file
and not excluded, `this.toIndex.add(file.path)`.  (src/main.ts registers this
handler twice, so one modify event runs it twice.) -/
def modifyEvent (env : Env) (toIndex : List String) (path : String)
    (f : TFile) : JsOut (List String) :=
  match isExcluded env path f with
  | .thrown => .thrown
  | .ok true => .ok toIndex
  | .ok false => .ok (jsAdd toIndex path)

/-! ### Shared lemmas about the JS-set operations -/

theorem mem_jsAdd {s : List String} {a x : String} :
    x ∈ jsAdd s a ↔ x ∈ s ∨ x = a := by
  unfold jsAdd
  split
  · rename_i h
    constructor
    · exact Or.inl
    · rintro (hx | rfl)
      · exact hx
      · exact h
  · simp

theorem nodup_jsAdd {s : List String} {a : String} (h : s.Nodup) :
    (jsAdd s a).Nodup := by
  unfold jsAdd
  split
  · exact h
  · rename_i ha
    simpa [List.nodup_append, h] using ha

theorem mem_foldl_jsAdd {l : List String} {s : List String} {x : String} :
    x ∈ l.foldl jsAdd s ↔ x ∈ s ∨ x ∈ l := by
  induction l generalizing s with
  | nil => simp
  | cons a t ih => simp [List.foldl_cons, ih, mem_jsAdd, or_assoc]

theorem nodup_foldl_jsAdd {l : List String} {s : List String} (h : s.Nodup) :
    (l.foldl jsAdd s).Nodup := by
  induction l generalizing s with
  | nil => exact h
  | cons a t ih => exact ih (nodup_jsAdd h)

theorem mem_mkSet {l : List String} {x : String} : x ∈ mkSet l ↔ x ∈ l := by
  simp [mkSet, mem_foldl_jsAdd]

theorem nodup_mkSet {l : List String} : (mkSet l).Nodup :=
  nodup_foldl_jsAdd List.nodup_nil

theorem foldl_jsAdd_eq_append {l : List String} :
    ∀ {s : List String}, (s ++ l).Nodup → l.foldl jsAdd s = s ++ l := by
  induction l with
  | nil => intro s _; simp
  | cons a t ih =>
    intro s h
    have ha : a ∉ s := by
      intro hmem
      exact (List.disjoint_of_nodup_append h) hmem (by simp)
    have h' : ((s ++ [a]) ++ t).Nodup := by simpa using h
    simp only [List.foldl_cons, jsAdd, if_neg ha]
    rw [ih h']
    simp

theorem mkSet_eq_self {l : List String} (h : l.Nodup) : mkSet l = l := by
  simpa [mkSet] using foldl_jsAdd_eq_append (by simpa using h)

theorem count_jsAdd_self {s : List String} {a : String} (h : s.Nodup) :
    (jsAdd s a).count a = 1 := by
  unfold jsAdd
  split
  · rename_i ha
    exact List.count_eq_one_of_mem h ha
  · rename_i ha
    rw [List.count_append]
    simp [List.count_eq_zero.mpr ha]

/-! ### Shared lemmas about `chunkArray` -/

theorem chunkArrayGo_join {α : Type} {chunkSize : Nat} (hn : chunkSize ≠ 0) :
    ∀ (fuel : Nat) (l : List α), l.length ≤ fuel →
      (chunkArrayGo chunkSize fuel l).flatten = l := by
  intro fuel
  induction fuel with
  | zero =>
    intro l hl
    have : l = [] := List.eq_nil_of_length_eq_zero (Nat.le_zero.mp hl)
    subst this
    rfl
  | succ fuel ih =>
    intro l hl
    match l with
    | [] => rfl
    | x :: xs =>
      have hdrop : ((x :: xs).drop chunkSize).length ≤ fuel := by
        simp only [List.length_drop, List.length_cons]
        have := List.length_cons x xs ▸ hl
        omega
      simp only [chunkArrayGo, List.flatten_cons, ih _ hdrop]
      exact List.take_append_drop _ _

theorem chunkArray_join {α : Type} {chunkSize : Nat} (hn : chunkSize ≠ 0)
    (l : List α) : (chunkArray l chunkSize).flatten = l := by
  simp only [chunkArray, if_neg hn]
  exact chunkArrayGo_join hn _ l le_rfl

theorem length_le_of_mem_chunkArrayGo {α : Type} {chunkSize : Nat}
    {b : List α} :
    ∀ {fuel : Nat} {l : List α}, b ∈ chunkArrayGo chunkSize fuel l →
      b.length ≤ chunkSize := by
  intro fuel
  induction fuel with
  | zero =>
    intro l hb
    cases l <;> simp [chunkArrayGo] at hb
  | succ fuel ih =>
    intro l hb
    match l with
    | [] => simp [chunkArrayGo] at hb
    | x :: xs =>
      simp only [chunkArrayGo, List.mem_cons] at hb
      rcases hb with rfl | hb
      · simp only [List.length_take]
        omega
      · exact ih hb

theorem length_le_of_mem_chunkArray {α : Type} {chunkSize : Nat}
    {l : List α} {b : List α} (hb : b ∈ chunkArray l chunkSize) :
    b.length ≤ chunkSize := by
  unfold chunkArray at hb
  split at hb
  · simp at hb
  · exact length_le_of_mem_chunkArrayGo hb

/-! ### Shared lemmas about `collectFiles` -/

theorem liveB_of_vault_none {env : Env} {p : String}
    (hv : env.vault p = none) : liveB env p = false := by
  unfold liveB
  rw [hv]

theorem liveB_of_vault_some {env : Env} {p : String} {f : TFile} {b : Bool}
    (hv : env.vault p = some f) (hex : isExcluded env p f = .ok b) :
    liveB env p = !b := by
  unfold liveB
  rw [hv]
  show (match isExcluded env p f with
        | JsOut.ok b => !b
        | JsOut.thrown => false) = !b
  rw [hex]

theorem collectFiles_cons_none {env : Env} {p : String} {ps : List String}
    (hv : env.vault p = none) :
    collectFiles env (p :: ps) = collectFiles env ps := by
  conv_lhs => unfold collectFiles
  rw [hv]

theorem collectFiles_cons_some {env : Env} {p : String} {ps : List String}
    {f : TFile} (hv : env.vault p = some f) :
    collectFiles env (p :: ps) =
      (match isExcluded env p f with
       | .thrown => .thrown
       | .ok true => collectFiles env ps
       | .ok false =>
         match collectFiles env ps with
         | .thrown => .thrown
         | .ok rest => .ok ((p, f) :: rest)) := by
  conv_lhs => unfold collectFiles
  rw [hv]

/-- Whenever the record-assembly loop completes without throwing, the paths
it keeps are exactly the input paths that resolve to an existing,
non-excluded file, in input order, paired with the files they resolve to. -/
theorem collectFiles_ok_fst {env : Env} :
    ∀ {l : List String} {pairs : List (String × TFile)},
      collectFiles env l = .ok pairs →
      pairs.map Prod.fst = l.filter (liveB env) ∧
      ∀ pr ∈ pairs, env.vault pr.1 = some pr.2 := by
  intro l
  induction l with
  | nil =>
    intro pairs h
    cases h
    exact ⟨rfl, by simp⟩
  | cons p ps ih =>
    intro pairs h
    cases hv : env.vault p with
    | none =>
      rw [collectFiles_cons_none hv] at h
      obtain ⟨h1, h2⟩ := ih h
      exact ⟨by simp [List.filter_cons, liveB_of_vault_none hv, h1], h2⟩
    | some f =>
      rw [collectFiles_cons_some hv] at h
      cases hex : isExcluded env p f with
      | thrown => rw [hex] at h; cases h
      | ok b =>
        rw [hex] at h
        cases b with
        | true =>
          obtain ⟨h1, h2⟩ := ih h
          exact ⟨by simp [List.filter_cons, liveB_of_vault_some hv hex, h1], h2⟩
        | false =>
          cases hrec : collectFiles env ps with
          | thrown => rw [hrec] at h; cases h
          | ok rest =>
            rw [hrec] at h
            cases h
            obtain ⟨h1, h2⟩ := ih hrec
            refine ⟨by simp [List.filter_cons, liveB_of_vault_some hv hex, h1], ?_⟩
            intro pr hpr
            rcases List.mem_cons.mp hpr with rfl | hpr
            · exact hv
            · exact h2 pr hpr

/-- When every input path either fails to resolve or survives the exclusion
check without throwing, the record-assembly loop completes. -/
theorem collectFiles_ok_of_resolveOk {env : Env} :
    ∀ {l : List String}, (∀ p ∈ l, resolveOk env p = true) →
      ∃ pairs, collectFiles env l = .ok pairs := by
  intro l
  induction l with
  | nil => exact fun _ => ⟨[], rfl⟩
  | cons p ps ih =>
    intro h
    have hp := h p (by simp)
    have hps : ∀ q ∈ ps, resolveOk env q = true := fun q hq => h q (by simp [hq])
    obtain ⟨pairs, hcf⟩ := ih hps
    unfold resolveOk at hp
    cases hv : env.vault p with
    | none => exact ⟨pairs, by rw [collectFiles_cons_none hv]; exact hcf⟩
    | some f =>
      rw [hv] at hp
      have hp' : (match isExcluded env p f with
                  | JsOut.ok _ => true
                  | JsOut.thrown => false) = true := hp
      cases hex : isExcluded env p f with
      | thrown => rw [hex] at hp'; cases hp'
      | ok b =>
        cases b with
        | true =>
          exact ⟨pairs, by rw [collectFiles_cons_some hv, hex]; exact hcf⟩
        | false =>
          exact ⟨(p, f) :: pairs, by rw [collectFiles_cons_some hv, hex, hcf]⟩

/-! ### Shared lemmas about `batchIndexDocuments` -/

theorem assembleDocs_names {env : Env} {pairs : List (String × TFile)} :
    (assembleDocs env pairs).map DocRecord.document_name = pairs.map Prod.fst := by
  induction pairs with
  | nil => rfl
  | cons a t ih => simp [assembleDocs, List.map_cons]

/-- Inversion of a completed `batchIndexDocuments` call: the assembly loop
completed, the single request carries exactly the assembled records, and the
returned set is the deduplicated failure report (resolved response) or the
live input set together with the concurrent additions (transport failure). -/
theorem batchIndexDocuments_ok_cases {env : Env}
    {resp : List DocRecord → Option (List String)}
    {filePaths added : List String} {o : BatchOutcome}
    (h : batchIndexDocuments env resp filePaths added = .ok o) :
    ∃ pairs, collectFiles env filePaths = .ok pairs ∧
      o.sent = assembleDocs env pairs ∧
      ((∃ failed, resp (assembleDocs env pairs) = some failed ∧
          o.remaining = mkSet failed) ∨
       (resp (assembleDocs env pairs) = none ∧
          o.remaining = added.foldl jsAdd filePaths)) := by
  unfold batchIndexDocuments at h
  split at h
  · cases h
  · rename_i pairs hpairs
    refine ⟨pairs, hpairs, ?_⟩
    split at h
    · rename_i failed hresp
      cases h
      exact ⟨rfl, Or.inl ⟨failed, hresp, rfl⟩⟩
    · rename_i hresp
      cases h
      exact ⟨rfl, Or.inr ⟨hresp, rfl⟩⟩

/-! ### Concrete fixtures used by witnesses and counterexamples -/

/-- A file whose metadata cache holds a frontmatter block without a `tags`
field. -/
def fileFmNoTags : TFile := ⟨some ⟨some ⟨none⟩, none⟩, "body"⟩

/-- A file whose metadata cache exists but has no frontmatter at all. -/
def fileNoFm : TFile := ⟨some ⟨none, none⟩, "body"⟩

/-- A file with no metadata cache. -/
def filePlainDoc : TFile := ⟨none, "body"⟩

/-- A file whose only tag metadata is the inline tag string `private`
(no `#` marker). -/
def fileInlineTag : TFile := ⟨some ⟨none, some ["private"]⟩, "body"⟩

/-- Environment with no exclusions and an empty vault. -/
def envPlain : Env := ⟨fun _ => none, [], [], id⟩

/-- §8 scenario configuration: path `"Archive/"` and tag `"#private"`
excluded; the vault holds the three scenario documents. -/
def envScenario : Env :=
  ⟨fun p =>
    if p = "Archive/x.md" then some filePlainDoc
    else if p = "Notes/y.md" then some fileInlineTag
    else if p = "Notes/z.md" then some filePlainDoc
    else none,
   ["Archive/"], ["#private"], id⟩

/-- A one-file vault with no exclusions, used for dispatch-cycle scenarios. -/
def envOneFile : Env :=
  ⟨fun p => if p = "a.md" then some filePlainDoc else none, [], [], id⟩

/-! ### Claim theorems -/

/-- Claim C5 (code bug): the claim says `isExcluded` never throws for any input
file and treats a frontmatter block without a `tags` field as an empty tag
set.  The code violates this: `cache?.frontmatter?.tags.map(...)` does not
optional-chain the `.map` access, so on a file whose frontmatter has no
`tags` field the call dereferences `undefined` and a TypeError escapes —
modelled here as `.thrown` on the concrete failing input `fileFmNoTags`.
The adjacent cases the claim lists do behave as claimed (absent cache,
absent frontmatter, absent inline tags all yield `.ok`), which shows the
missing `?.` is a slip rather than a design choice. -/
theorem C5_frontmatter_without_tags_throws :
    isExcluded envPlain "Notes/a.md" fileFmNoTags = .thrown ∧
    isExcluded envPlain "Notes/a.md" fileNoFm = .ok false ∧
    isExcluded envPlain "Notes/a.md" filePlainDoc = .ok false := by
  decide

/-- A file whose frontmatter block lacks a `tags` field but whose inline
tag metadata carries the bare tag `private`: the claim's tag rule says it
must be excluded, the code throws before the tag loop is reached. -/
def fileFmNoTagsInline : TFile := ⟨some ⟨some ⟨none⟩, some ["private"]⟩, "body"⟩

/-- Claim C7 counterexample: the claim asserts unconditionally that
`isExcluded` *returns* `true` for every file whose normalised frontmatter or
inline tags intersect the excluded-tag set.  On the concrete file
`fileFmNoTagsInline` — inline tag `private`, normalised to `#private`, which
lies in the configured excluded set, path matching no excluded prefix — the
unguarded `.map` on the absent frontmatter `tags` field throws a TypeError
out of `isExcluded` instead, so no boolean is returned at all (the same slip
recorded for C5). -/
theorem C7_tag_rule_throws :
    isExcluded envScenario "Notes/w.md" fileFmNoTagsInline = .thrown ∧
    (JsOut.thrown : JsOut Bool) ≠ .ok true := by
  decide

/-- Claim C7 as amended: `isExcluded` returns `true` whenever some configured
excluded path is a string prefix of the file path (even before any tag
metadata is read), and — whenever it completes without throwing, which
excludes exactly the files whose frontmatter block lacks a `tags` field —
it returns `true` exactly when a prefix matches or the union of normalised
frontmatter and inline tags meets the configured excluded-tag set.  The
three §8 scenario documents behave as the claim states: `Archive/x.md` is
excluded by the prefix `Archive/`, `Notes/y.md` with bare inline tag
`private` is excluded via normalisation to `#private`, and `Notes/z.md` is
included. -/
theorem C7_exclusion_rules :
    (∀ (env : Env) (path : String) (f : TFile),
      (∃ pre ∈ env.excludePaths, strStarts path pre = true) →
      isExcluded env path f = .ok true) ∧
    (∀ (env : Env) (path : String) (f : TFile) (b : Bool),
      isExcluded env path f = .ok b →
      (b = true ↔ (∃ pre ∈ env.excludePaths, strStarts path pre = true) ∨
        ∃ fts, frontmatterTags f.cache = .ok fts ∧
          ∃ t ∈ env.excludeTags, t ∈ fts ++ inlineTags f.cache)) ∧
    isExcluded envScenario "Archive/x.md" filePlainDoc = .ok true ∧
    isExcluded envScenario "Notes/y.md" fileInlineTag = .ok true ∧
    isExcluded envScenario "Notes/z.md" filePlainDoc = .ok false := by
  refine ⟨?_, ?_, by decide, by decide, by decide⟩
  · intro env path f hpre
    unfold isExcluded
    rw [if_pos (by simpa [List.any_eq_true] using hpre)]
  · intro env path f b h
    unfold isExcluded at h
    split at h
    · rename_i hpre
      cases h
      simp only [List.any_eq_true] at hpre
      simp [hpre]
    · rename_i hpre
      cases hft : frontmatterTags f.cache with
      | thrown => rw [hft] at h; cases h
      | ok fts =>
        rw [hft] at h
        cases h
        constructor
        · intro hb
          simp only [List.any_eq_true] at hb
          obtain ⟨t, ht, hmem⟩ := hb
          exact Or.inr ⟨fts, rfl, t, ht, by
            simpa [List.elem_iff] using hmem⟩
        · rintro (habs | ⟨fts', hfts', t, ht, hmem⟩)
          · exact absurd (by simpa [List.any_eq_true] using habs) hpre
          · cases hfts'
            simp only [List.any_eq_true]
            exact ⟨t, ht, by simpa [List.elem_iff] using hmem⟩

/-- Witness for C7: the general parts of the theorem applied at the §8
scenario inputs. -/
theorem C7_exclusion_rules_witness :
    isExcluded envScenario "Archive/sub/n.md" filePlainDoc = .ok true ∧
    (true = true ↔ (∃ pre ∈ envScenario.excludePaths,
        strStarts "Notes/y.md" pre = true) ∨
      ∃ fts, frontmatterTags fileInlineTag.cache = .ok fts ∧
        ∃ t ∈ envScenario.excludeTags, t ∈ fts ++ inlineTags fileInlineTag.cache) :=
  ⟨C7_exclusion_rules.1 envScenario "Archive/sub/n.md" filePlainDoc
      ⟨"Archive/", by decide, by decide⟩,
   C7_exclusion_rules.2.1 envScenario "Notes/y.md" fileInlineTag true
      (by decide)⟩

/-- Claim C3 (confirmed): when the single batch HTTP call rejects at the transport
level, the set `batchIndexDocuments` returns contains every identifier of the
batch that was sent — indeed it contains every identifier of the whole input
set, so no identifier is dropped by a single failed dispatch. -/
theorem C3_transport_failure_requeues_batch
    (env : Env) (resp : List DocRecord → Option (List String))
    (filePaths added : List String) (o : BatchOutcome)
    (h : batchIndexDocuments env resp filePaths added = .ok o)
    (hfail : resp o.sent = none) :
    (∀ x ∈ o.sent.map DocRecord.document_name, x ∈ o.remaining) ∧
    ∀ x ∈ filePaths, x ∈ o.remaining := by
  obtain ⟨pairs, hpairs, hsent, hcases⟩ := batchIndexDocuments_ok_cases h
  rcases hcases with ⟨failed, hresp, _⟩ | ⟨_, hrem⟩
  · rw [hsent] at hfail
    rw [hresp] at hfail
    cases hfail
  · have hsub : ∀ x ∈ o.sent.map DocRecord.document_name, x ∈ filePaths := by
      intro x hx
      rw [hsent, assembleDocs_names, (collectFiles_ok_fst hpairs).1] at hx
      exact List.mem_of_mem_filter hx
    have hall : ∀ x ∈ filePaths, x ∈ o.remaining := by
      intro x hx
      rw [hrem]
      exact mem_foldl_jsAdd.mpr (Or.inl hx)
    exact ⟨fun x hx => hall x (hsub x hx), hall⟩

/-- Witness for C3: a transport failure on the one-file vault re-queues the
sent identifier `a.md`. -/
theorem C3_transport_failure_requeues_batch_witness :
    "a.md" ∈ (BatchOutcome.mk [⟨"a.md", "body"⟩] ["a.md"]).remaining :=
  (C3_transport_failure_requeues_batch envOneFile (fun _ => none)
    ["a.md"] [] ⟨[⟨"a.md", "body"⟩], ["a.md"]⟩ (by decide) (by decide)).2
    "a.md" (by decide)

/-- Claim C10 (confirmed): on a transport-level failure `batchIndexDocuments`
returns the original input set verbatim (`return filePaths`), and that set
may contain identifiers that were silently dropped during record assembly —
the second conjunct exhibits a concrete input where a vanished identifier
(`gone.md`, not in the vault) and an excluded identifier (`Archive/x.md`)
are both re-queued although neither was sent to the backend. -/
theorem C10_transport_failure_returns_input_verbatim :
    (∀ (env : Env) (resp : List DocRecord → Option (List String))
      (filePaths : List String) (o : BatchOutcome),
      batchIndexDocuments env resp filePaths [] = .ok o →
      resp o.sent = none →
      o.remaining = filePaths) ∧
    (∃ o, batchIndexDocuments envScenario (fun _ => none)
        ["gone.md", "Archive/x.md", "Notes/z.md"] [] = .ok o ∧
      "gone.md" ∈ o.remaining ∧ "Archive/x.md" ∈ o.remaining ∧
      "gone.md" ∉ o.sent.map DocRecord.document_name ∧
      "Archive/x.md" ∉ o.sent.map DocRecord.document_name) := by
  constructor
  · intro env resp filePaths o h hfail
    obtain ⟨pairs, hpairs, hsent, hcases⟩ := batchIndexDocuments_ok_cases h
    rcases hcases with ⟨failed, hresp, _⟩ | ⟨_, hrem⟩
    · rw [hsent] at hfail
      rw [hresp] at hfail
      cases hfail
    · rw [hrem]
      rfl
  · exact ⟨⟨[⟨"Notes/z.md", "body"⟩], ["gone.md", "Archive/x.md", "Notes/z.md"]⟩,
      by decide, by decide, by decide, by decide, by decide⟩

/-- Witness for C10: the first conjunct applied at the concrete input of the
second. -/
theorem C10_transport_failure_returns_input_verbatim_witness :
    (BatchOutcome.mk [⟨"Notes/z.md", "body"⟩]
        ["gone.md", "Archive/x.md", "Notes/z.md"]).remaining =
      ["gone.md", "Archive/x.md", "Notes/z.md"] :=
  C10_transport_failure_returns_input_verbatim.1 envScenario (fun _ => none)
    ["gone.md", "Archive/x.md", "Notes/z.md"]
    ⟨[⟨"Notes/z.md", "body"⟩], ["gone.md", "Archive/x.md", "Notes/z.md"]⟩
    (by decide) (by decide)

/-- Claim C2 (confirmed): for the batch sent by `batchIndexDocuments` and a
resolved backend response whose `failed_documents` is contained in the batch,
the Pending Set produced by the dispatch cycle (no concurrent additions)
contains every failed identifier and no identifier of the batch that is not
in the failure report. -/
theorem C2_partial_failure_contract
    (env : Env) (resp : List DocRecord → Option (List String))
    (toIndex : List String) (o : BatchOutcome) (failed : List String)
    (h : batchIndexDocuments env resp toIndex [] = .ok o)
    (hresp : resp o.sent = some failed)
    (_hsub : ∀ x ∈ failed, x ∈ o.sent.map DocRecord.document_name) :
    dispatchTick env resp toIndex [] = .ok o.remaining ∧
    (∀ x ∈ failed, x ∈ o.remaining) ∧
    (∀ x ∈ o.sent.map DocRecord.document_name, x ∉ failed → x ∉ o.remaining) := by
  obtain ⟨pairs, hpairs, hsent, hcases⟩ := batchIndexDocuments_ok_cases h
  have htick : dispatchTick env resp toIndex [] = .ok o.remaining := by
    unfold dispatchTick
    rw [h]
  rcases hcases with ⟨failed', hresp', hrem⟩ | ⟨hresp', _⟩
  · rw [hsent] at hresp
    rw [hresp'] at hresp
    cases hresp
    refine ⟨htick, ?_, ?_⟩
    · intro x hx
      rw [hrem]
      exact mem_mkSet.mpr hx
    · intro x _ hnot hx
      exact hnot (mem_mkSet.mp (hrem ▸ hx))
  · rw [hsent] at hresp
    rw [hresp'] at hresp
    cases hresp

/-- Witness for C2: one file, a response failing exactly that file. -/
theorem C2_partial_failure_contract_witness :
    dispatchTick envOneFile (fun _ => some ["a.md"]) ["a.md"] [] =
      .ok (BatchOutcome.mk [⟨"a.md", "body"⟩] ["a.md"]).remaining :=
  (C2_partial_failure_contract envOneFile (fun _ => some ["a.md"]) ["a.md"]
    ⟨[⟨"a.md", "body"⟩], ["a.md"]⟩ ["a.md"]
    (by decide) (by decide) (by decide)).1

/-- Claim C1 counterexample: the claim says the Pending Set after a tick equals
`remaining ∪ A` for the set `A` of concurrently added identifiers.  Concrete
run: `toIndex = {a.md}` (resolving, not excluded), a modify handler adds
`b.md` during the dispatch window, the backend resolves with an empty
failure report.  The claim demands final set `∅ ∪ {b.md} = {b.md}`; the code
assigns `this.toIndex = new Set([])`, so the final set is empty and the
concurrently added `b.md` is lost. -/
theorem C1_concurrent_add_lost :
    dispatchTick envOneFile (fun _ => some []) ["a.md"] ["b.md"] = .ok [] ∧
    "b.md" ∉ ([] : List String) := by
  decide

/-- Claim C1 as amended: after a tick whose HTTP call resolves, the Pending Set
equals exactly the deduplicated failure report — identifiers added
concurrently during the dispatch window are lost; after a tick whose call
rejects, the Pending Set is the working set together with all concurrent
additions (the same live object). -/
theorem C1_pending_after_tick
    (env : Env) (resp : List DocRecord → Option (List String))
    (toIndex added : List String) (o : BatchOutcome)
    (h : batchIndexDocuments env resp toIndex added = .ok o) :
    dispatchTick env resp toIndex added = .ok o.remaining ∧
    (∀ failed, resp o.sent = some failed →
      ∀ x, x ∈ o.remaining ↔ x ∈ failed) ∧
    (resp o.sent = none →
      ∀ x, x ∈ o.remaining ↔ x ∈ toIndex ∨ x ∈ added) := by
  obtain ⟨pairs, hpairs, hsent, hcases⟩ := batchIndexDocuments_ok_cases h
  have htick : dispatchTick env resp toIndex added = .ok o.remaining := by
    unfold dispatchTick
    rw [h]
  refine ⟨htick, ?_, ?_⟩
  · intro failed hresp x
    rcases hcases with ⟨failed', hresp', hrem⟩ | ⟨hresp', _⟩
    · rw [hsent] at hresp
      rw [hresp'] at hresp
      cases hresp
      rw [hrem]
      exact mem_mkSet
    · rw [hsent] at hresp
      rw [hresp'] at hresp
      cases hresp
  · intro hresp x
    rcases hcases with ⟨failed', hresp', _⟩ | ⟨_, hrem⟩
    · rw [hsent] at hresp
      rw [hresp'] at hresp
      cases hresp
    · rw [hrem]
      exact mem_foldl_jsAdd

/-- Witness for C1's amended statement: a transport failure keeps both the
working set and the concurrent addition. -/
theorem C1_pending_after_tick_witness :
    dispatchTick envOneFile (fun _ => none) ["a.md"] ["b.md"] =
      .ok (BatchOutcome.mk [⟨"a.md", "body"⟩] ["a.md", "b.md"]).remaining :=
  (C1_pending_after_tick envOneFile (fun _ => none) ["a.md"] ["b.md"]
    ⟨[⟨"a.md", "body"⟩], ["a.md", "b.md"]⟩ (by decide)).1

theorem jsAdd_of_mem {s : List String} {x : String} (h : x ∈ s) :
    jsAdd s x = s := by
  unfold jsAdd
  rw [if_pos h]

/-- Claim C9 (confirmed): adding an identifier that resolves to a non-excluded
file via the `modify` handler is idempotent — a second add is a no-op, the
Pending Set holds exactly one entry for it, and the single `documents` array
of the next dispatch carries exactly one record named by it. -/
theorem C9_idempotent_add
    (env : Env) (resp : List DocRecord → Option (List String))
    (toIndex : List String) (path : String) (f : TFile) (o : BatchOutcome)
    (hnodup : toIndex.Nodup)
    (hv : env.vault path = some f)
    (hex : isExcluded env path f = .ok false)
    (ho : batchIndexDocuments env resp (jsAdd (jsAdd toIndex path) path) [] =
      .ok o) :
    modifyEvent env toIndex path f = .ok (jsAdd toIndex path) ∧
    modifyEvent env (jsAdd toIndex path) path f = .ok (jsAdd toIndex path) ∧
    (jsAdd (jsAdd toIndex path) path).count path = 1 ∧
    (o.sent.map DocRecord.document_name).count path = 1 := by
  have hmem : path ∈ jsAdd toIndex path := mem_jsAdd.mpr (Or.inr rfl)
  have hidem : jsAdd (jsAdd toIndex path) path = jsAdd toIndex path :=
    jsAdd_of_mem hmem
  have hlive : liveB env path = true := by
    rw [liveB_of_vault_some hv hex]
    rfl
  refine ⟨?_, ?_, ?_, ?_⟩
  · unfold modifyEvent
    rw [hex]
  · unfold modifyEvent
    rw [hex, hidem]
  · rw [hidem]
    exact count_jsAdd_self hnodup
  · obtain ⟨pairs, hpairs, hsent, _⟩ := batchIndexDocuments_ok_cases ho
    have hnames : o.sent.map DocRecord.document_name =
        (jsAdd (jsAdd toIndex path) path).filter (liveB env) := by
      rw [hsent, assembleDocs_names, (collectFiles_ok_fst hpairs).1]
    rw [hnames, hidem]
    have hnd : ((jsAdd toIndex path).filter (liveB env)).Nodup :=
      (nodup_jsAdd hnodup).filter _
    have hmemf : path ∈ (jsAdd toIndex path).filter (liveB env) :=
      List.mem_filter.mpr ⟨hmem, hlive⟩
    exact List.count_eq_one_of_mem hnd hmemf

/-- Witness for C9: two modify events for `a.md` on an empty queue, followed
by a dispatch whose call succeeds with no failures. -/
theorem C9_idempotent_add_witness :
    ((BatchOutcome.mk [⟨"a.md", "body"⟩] []).sent.map
      DocRecord.document_name).count "a.md" = 1 :=
  (C9_idempotent_add envOneFile (fun _ => some []) [] "a.md" filePlainDoc
    ⟨[⟨"a.md", "body"⟩], []⟩ (by decide) (by decide) (by decide)
    (by decide)).2.2.2

/-- The eleven-file vault used to refute the claimed per-call cap of the
periodic dispatch path. -/
def paths11 : List String :=
  ["n01.md", "n02.md", "n03.md", "n04.md", "n05.md", "n06.md", "n07.md",
   "n08.md", "n09.md", "n10.md", "n11.md"]

/-- Vault resolving exactly `paths11`, no exclusions. -/
def env11 : Env :=
  ⟨fun p => if p ∈ paths11 then some filePlainDoc else none, [], [], id⟩

/-- Claim C4 counterexample: the claim says the periodic dispatch path partitions
the working set into batches of at most the fixed cap (the repository's only
batch constant is 10) and that no single HTTP call carries more than the cap.
With eleven pending resolvable documents, the interval tick issues its one
HTTP call with all eleven records: `chunkArray` is used only by the bulk
`index-all-documents` command, never on the periodic path. -/
theorem C4_periodic_call_exceeds_cap :
    tickSent env11 (fun _ => some []) paths11 =
      .ok (paths11.map (fun p => ⟨p, "body"⟩)) ∧
    (paths11.map (fun p => (⟨p, "body"⟩ : DocRecord))).length = 11 ∧
    ¬ (11 ≤ 10) := by
  decide

/-- Claim C4 as amended: the periodic tick sends the entire resolved working set
in one HTTP call — its `documents` array names exactly the pending
identifiers that resolve and are not excluded, with no size bound — while
the cap of 10 items per call exists only on the bulk path, where every
batch produced by `chunkArray` with chunk size 10 has length at most 10. -/
theorem C4_periodic_unchunked_bulk_chunked
    (env : Env) (resp : List DocRecord → Option (List String))
    (toIndex added : List String) (o : BatchOutcome)
    (h : batchIndexDocuments env resp toIndex added = .ok o) :
    o.sent.map DocRecord.document_name = toIndex.filter (liveB env) ∧
    ∀ b : List String, b ∈ chunkArray toIndex 10 → b.length ≤ 10 := by
  obtain ⟨pairs, hpairs, hsent, _⟩ := batchIndexDocuments_ok_cases h
  constructor
  · rw [hsent, assembleDocs_names, (collectFiles_ok_fst hpairs).1]
  · intro b hb
    exact length_le_of_mem_chunkArray hb

/-- Witness for C4's amended statement at the eleven-file input. -/
theorem C4_periodic_unchunked_bulk_chunked_witness :
    (BatchOutcome.mk (paths11.map (fun p => ⟨p, "body"⟩)) []).sent.map
      DocRecord.document_name = paths11.filter (liveB env11) :=
  (C4_periodic_unchunked_bulk_chunked env11 (fun _ => some []) paths11 []
    ⟨paths11.map (fun p => ⟨p, "body"⟩), []⟩ (by decide)).1

theorem mergeSettings_storedOf {s : LocalRagSettings} :
    mergeSettings (storedOf s) = s := rfl

/-- A one-file vault whose only file has a frontmatter block without a
`tags` field, so its load-time exclusion re-check throws. -/
def envBad : Env :=
  ⟨fun p => if p = "bad.md" then some fileFmNoTags else none, [], [], id⟩

/-- Claim C8 counterexample: the claim's round trip quantifies over every
Pending Set, but persisting the set `{bad.md}` — whose identifier still
resolves to an existing file carrying a frontmatter block without a `tags`
field — and loading it back makes the load-time exclusion re-check throw
(the C5 slip), so `loadSettings` aborts with a TypeError instead of yielding
the claimed restricted set. -/
theorem C8_roundtrip_throws :
    loadSettings envBad.vault id
        (some (savePluginData ⟨"cfg", 5, [], []⟩ ["bad.md"])) = .thrown ∧
    (JsOut.thrown : JsOut (Env × List String)) ≠
      .ok (⟨envBad.vault, [], [], id⟩, []) := by
  constructor
  · rfl
  · intro h
    cases h

/-- Claim C8 as amended: persisting the Pending Set and loading it back
(same vault, same exclusion configuration) yields exactly the original set
restricted to identifiers that still resolve to an existing, non-excluded
file, provided the load-time exclusion re-check completes on every persisted
identifier (no persisted identifier resolves to a file whose frontmatter
block lacks a `tags` field — on such a set the load throws instead); and a
missing (`null`) or malformed (non-array `toIndex`) persisted state loads as
the empty set without throwing. -/
theorem C8_persist_load_roundtrip :
    (∀ (vault : String → Option TFile) (encode : String → String)
      (s : LocalRagSettings) (ti : List String),
      ti.Nodup →
      (∀ p ∈ ti,
        resolveOk ⟨vault, s.excludePaths, s.excludeTags, encode⟩ p = true) →
      loadSettings vault encode (some (savePluginData s ti)) =
        .ok (⟨vault, s.excludePaths, s.excludeTags, encode⟩,
          ti.filter (liveB ⟨vault, s.excludePaths, s.excludeTags, encode⟩))) ∧
    (∀ (vault : String → Option TFile) (encode : String → String),
      loadSettings vault encode none = .ok (⟨vault, [], [], encode⟩, [])) ∧
    (∀ (vault : String → Option TFile) (encode : String → String)
      (ss : Option StoredSettings),
      loadSettings vault encode (some ⟨ss, none⟩) =
        .ok (loadEnv vault encode (some ⟨ss, none⟩), [])) := by
  refine ⟨?_, fun vault encode => rfl, fun vault encode ss => rfl⟩
  intro vault encode s ti hnodup hok
  have henv : loadEnv vault encode (some (savePluginData s ti)) =
      ⟨vault, s.excludePaths, s.excludeTags, encode⟩ := rfl
  have hset : mkSet (normalizeData (some (savePluginData s ti))).2 = ti :=
    mkSet_eq_self hnodup
  unfold loadSettings
  rw [hset, henv]
  by_cases hlen : 0 < ti.length
  · rw [if_pos hlen]
    obtain ⟨pairs, hcf⟩ := collectFiles_ok_of_resolveOk hok
    rw [hcf, ← (collectFiles_ok_fst hcf).1]
  · rw [if_neg hlen]
    have hnil : ti = [] := by
      cases ti with
      | nil => rfl
      | cons a t => simp at hlen
    rw [hnil]
    rfl

/-- Witness for C8: a persisted set holding a resolvable file and a vanished
one loads back as just the resolvable file. -/
theorem C8_persist_load_roundtrip_witness :
    loadSettings envOneFile.vault id
        (some (savePluginData ⟨"cfg", 5, [], []⟩ ["a.md", "gone.md"])) =
      .ok (⟨envOneFile.vault, [], [], id⟩,
        ["a.md", "gone.md"].filter (liveB ⟨envOneFile.vault, [], [], id⟩)) :=
  C8_persist_load_roundtrip.1 envOneFile.vault id ⟨"cfg", 5, [], []⟩
    ["a.md", "gone.md"] (by decide) (by decide)

theorem resolveOk_of_liveB {env : Env} {p : String}
    (h : liveB env p = true) : resolveOk env p = true := by
  unfold liveB at h
  unfold resolveOk
  cases hv : env.vault p with
  | none => rfl
  | some f =>
    rw [hv] at h
    show (match isExcluded env p f with
          | JsOut.ok _ => true
          | JsOut.thrown => false) = true
    have h' : (match isExcluded env p f with
               | JsOut.ok b => !b
               | JsOut.thrown => false) = true := h
    cases hex : isExcluded env p f with
    | thrown =>
      rw [hex] at h'
      cases h'
    | ok b => rfl

/-- A backend that always fails exactly the members of a fixed identifier
set `F`: every call resolves, reporting as failed precisely the sent
documents whose names lie in `F` (the §8 bulk-reindex scenario). -/
def respAlways (F : List String) : List DocRecord → Option (List String) :=
  fun docs => some ((docs.map DocRecord.document_name).filter
    (fun x => F.contains x))

theorem batchIndex_respAlways {env : Env} {F b : List String}
    (hlive : ∀ p ∈ b, liveB env p = true) :
    ∃ o, batchIndexDocuments env (respAlways F) (mkSet b) [] = .ok o ∧
      ∀ x, x ∈ o.remaining ↔ x ∈ b ∧ x ∈ F := by
  have hok : ∀ p ∈ mkSet b, resolveOk env p = true := fun p hp =>
    resolveOk_of_liveB (hlive p (mem_mkSet.mp hp))
  obtain ⟨pairs, hcf⟩ := collectFiles_ok_of_resolveOk hok
  refine ⟨⟨assembleDocs env pairs,
    mkSet (((assembleDocs env pairs).map DocRecord.document_name).filter
      (fun x => F.contains x))⟩, ?_, ?_⟩
  · unfold batchIndexDocuments
    rw [hcf]
    rfl
  · intro x
    have hnames : (assembleDocs env pairs).map DocRecord.document_name =
        mkSet b := by
      rw [assembleDocs_names, (collectFiles_ok_fst hcf).1]
      exact List.filter_eq_self.mpr (fun p hp => hlive p (mem_mkSet.mp hp))
    simp only [hnames, mem_mkSet, List.mem_filter, List.elem_iff]

theorem dispatchBatches_respAlways {env : Env} {F : List String} :
    ∀ (bs : List (List String)) (acc : List String),
      (∀ b ∈ bs, ∀ p ∈ b, liveB env p = true) →
      ∃ r, dispatchBatches env (respAlways F) bs acc = .ok r ∧
        (∀ x, x ∈ r ↔ x ∈ acc ∨ ∃ b ∈ bs, x ∈ b ∧ x ∈ F) ∧
        (acc.Nodup → r.Nodup) := by
  intro bs
  induction bs with
  | nil => exact fun acc _ => ⟨acc, rfl, by simp, id⟩
  | cons b bs ih =>
    intro acc hlive
    obtain ⟨o, ho, homem⟩ := batchIndex_respAlways (hlive b (by simp))
    obtain ⟨r, hr, hrmem, hrnd⟩ := ih (o.remaining.foldl jsAdd acc)
      (fun b' hb' => hlive b' (by simp [hb']))
    refine ⟨r, ?_, ?_, ?_⟩
    · unfold dispatchBatches
      rw [ho]
      exact hr
    · intro x
      rw [hrmem x, mem_foldl_jsAdd]
      constructor
      · rintro ((hx | hx) | hx)
        · exact Or.inl hx
        · obtain ⟨hb, hF⟩ := (homem x).mp hx
          exact Or.inr ⟨b, by simp, hb, hF⟩
        · obtain ⟨b', hb', hx', hF⟩ := hx
          exact Or.inr ⟨b', by simp [hb'], hx', hF⟩
      · rintro (hx | ⟨b', hb', hx', hF⟩)
        · exact Or.inl (Or.inl hx)
        · rcases List.mem_cons.mp hb' with rfl | hb'
          · exact Or.inl (Or.inr ((homem x).mpr ⟨hx', hF⟩))
          · exact Or.inr ⟨b', hb', hx', hF⟩
    · intro hacc
      exact hrnd (nodup_foldl_jsAdd hacc)

theorem passOnce_respAlways {env : Env} {F S : List String}
    (hlive : ∀ p ∈ S, liveB env p = true) :
    ∃ r, passOnce env (respAlways F) 10 S = .ok r ∧
      (∀ x, x ∈ r ↔ x ∈ S ∧ x ∈ F) ∧ r.Nodup := by
  have hmemS : ∀ x : String, (∃ b ∈ chunkArray S 10, x ∈ b) ↔ x ∈ S := by
    intro x
    have hj := chunkArray_join (by decide : (10 : Nat) ≠ 0) S
    constructor
    · rintro ⟨b, hb, hx⟩
      rw [← hj]
      exact List.mem_flatten.mpr ⟨b, hb, hx⟩
    · intro hx
      rw [← hj] at hx
      exact List.mem_flatten.mp hx
  have hblive : ∀ b ∈ chunkArray S 10, ∀ p ∈ b, liveB env p = true :=
    fun b hb p hp => hlive p ((hmemS p).mp ⟨b, hb, hp⟩)
  obtain ⟨r, hr, hrmem, hrnd⟩ :=
    dispatchBatches_respAlways (chunkArray S 10) [] hblive
  refine ⟨r, hr, ?_, hrnd List.nodup_nil⟩
  intro x
  rw [hrmem x]
  simp only [List.not_mem_nil, false_or]
  constructor
  · rintro ⟨b, hb, hx, hF⟩
    exact ⟨(hmemS x).mp ⟨b, hb, hx⟩, hF⟩
  · rintro ⟨hS, hF⟩
    obtain ⟨b, hb, hx⟩ := (hmemS x).mpr hS
    exact ⟨b, hb, hx, hF⟩

theorem retryLoopGo_attempts_le {env : Env}
    {resp : List DocRecord → Option (List String)} {batchSize : Nat} :
    ∀ (fuel attempts : Nat) (current final : List String) (n : Nat),
      retryLoopGo env resp batchSize fuel attempts current = .ok (final, n) →
      n ≤ attempts + fuel := by
  intro fuel
  induction fuel with
  | zero =>
    intro attempts current final n h
    unfold retryLoopGo at h
    simp only [JsOut.ok.injEq, Prod.mk.injEq] at h
    obtain ⟨-, rfl⟩ := h
    omega
  | succ fuel ih =>
    intro attempts current final n h
    unfold retryLoopGo at h
    split at h
    · simp only [JsOut.ok.injEq, Prod.mk.injEq] at h
      obtain ⟨-, rfl⟩ := h
      omega
    · split at h
      · cases h
      · have := ih (attempts + 1) _ final n h
        omega

theorem retryLoopGo_respAlways {env : Env} {F : List String}
    (hliveF : ∀ p ∈ F, liveB env p = true) (y : String) (hy : y ∈ F) :
    ∀ (fuel attempts : Nat) (current : List String),
      attempts + fuel = 5 →
      (∀ x, x ∈ current ↔ x ∈ F) →
      current.Nodup →
      ∃ final, retryLoopGo env (respAlways F) 10 fuel attempts current =
          .ok (final, 5) ∧
        (∀ x, x ∈ final ↔ x ∈ F) ∧ final.Nodup := by
  intro fuel
  induction fuel with
  | zero =>
    intro attempts current hsum hcur hnd
    have h5 : attempts = 5 := by omega
    subst h5
    exact ⟨current, rfl, hcur, hnd⟩
  | succ fuel ih =>
    intro attempts current hsum hcur hnd
    have hcl : ∀ p ∈ current, liveB env p = true :=
      fun p hp => hliveF p ((hcur p).mp hp)
    obtain ⟨r, hr, hrmem, hrnd⟩ := passOnce_respAlways hcl
    have hrF : ∀ x, x ∈ r ↔ x ∈ F := by
      intro x
      rw [hrmem x]
      exact ⟨And.right, fun hF => ⟨(hcur x).mpr hF, hF⟩⟩
    have hcne : current ≠ [] := by
      intro hnil
      have hmem := (hcur y).mpr hy
      rw [hnil] at hmem
      exact List.not_mem_nil y hmem
    obtain ⟨final, hfin, hfinmem, hfinnd⟩ :=
      ih (attempts + 1) r (by omega) hrF hrnd
    have hguard : ¬ (current = [] ∨ 5 ≤ attempts) := by
      rintro (h1 | h2)
      · exact hcne h1
      · omega
    refine ⟨final, ?_, hfinmem, hfinnd⟩
    unfold retryLoopGo
    rw [if_neg hguard, hr]
    exact hfin

/-- Claim C6 (confirmed): the bulk `index-all-documents` operation with a backend
that always fails exactly the fixed set `F` of (resolvable, non-excluded)
identifiers stops after exactly the 5 configured retry passes and reports a
final remaining set whose members are exactly `F` — so the reported failure
count equals `F`'s size.  Moreover, for an arbitrary backend the retry
counter of a completed run never exceeds 5. -/
theorem C6_bulk_reindex_bounded_retry
    (env : Env) (F filesSet final : List String) (attempts : Nat)
    (hlive : ∀ p ∈ filesSet, liveB env p = true)
    (hFsub : ∀ x ∈ F, x ∈ filesSet)
    (hFnodup : F.Nodup) (hFne : F ≠ [])
    (hrun : indexAllDocuments env (respAlways F) filesSet =
      .ok (final, attempts)) :
    attempts = 5 ∧ (∀ x, x ∈ final ↔ x ∈ F) ∧ final.length = F.length ∧
    ∀ (rs : List DocRecord → Option (List String)) (fin : List String)
      (n : Nat), indexAllDocuments env rs filesSet = .ok (fin, n) → n ≤ 5 := by
  obtain ⟨y, hy⟩ := List.exists_mem_of_ne_nil F hFne
  have hliveF : ∀ p ∈ F, liveB env p = true := fun p hp => hlive p (hFsub p hp)
  obtain ⟨r0, hr0, hr0mem, hr0nd⟩ := passOnce_respAlways hlive
  have hr0F : ∀ x, x ∈ r0 ↔ x ∈ F := by
    intro x
    rw [hr0mem x]
    exact ⟨And.right, fun hF => ⟨hFsub x hF, hF⟩⟩
  obtain ⟨final', hfin, hfinmem, hfinnd⟩ :=
    retryLoopGo_respAlways hliveF y hy 5 0 r0 (by omega) hr0F hr0nd
  have hrun' : indexAllDocuments env (respAlways F) filesSet =
      .ok (final', 5) := by
    unfold indexAllDocuments
    rw [hr0]
    exact hfin
  rw [hrun'] at hrun
  simp only [JsOut.ok.injEq, Prod.mk.injEq] at hrun
  obtain ⟨h1, h2⟩ := hrun
  subst h1
  subst h2
  refine ⟨rfl, hfinmem, ?_, ?_⟩
  · exact List.Perm.length_eq
      ((List.perm_ext_iff_of_nodup hfinnd hFnodup).mpr hfinmem)
  · intro rs fin n hrun2
    unfold indexAllDocuments at hrun2
    split at hrun2
    · cases hrun2
    · rename_i rem hrem
      have := retryLoopGo_attempts_le 5 0 rem fin n hrun2
      omega

/-- Witness for C6: one live file, a backend that always fails it; after the
5 retry passes the file is still reported remaining. -/
theorem C6_bulk_reindex_bounded_retry_witness :
    "a.md" ∈ (["a.md"] : List String) :=
  ((C6_bulk_reindex_bounded_retry envOneFile ["a.md"] ["a.md"] ["a.md"] 5
    (by decide) (by decide) (by decide) (by decide) (by decide)).2.1
    "a.md").mpr (by decide)

end LocalRag
